import Mathlib

/-!
Verification development for `src/app/credExplorer/RepositorySelect.js`.

The file shallowly embeds the selection-status resolution state machine
(`loadStatus`), the repository identifier codec (`validateRepo`,
`repoStringToRepo`, and the `"owner/name"` formatting used by the selector),
and the controller transitions (`componentDidMount` notification and the
user-driven selection path composed from `RepositorySelect.onChange` and the
`LocalStoreRepositorySelect` write-through handler).

The asynchronous fetch, the JSON decoder and the preference-store read are
external collaborators of the resolver; their outcomes are modelled as
explicit inputs (`FetchOutcome`, `StoreRead`), so that every control path of
`loadStatus` — including its `catch`-all conversion to `FAILURE` — is a case
of a total function.
-/

/-- A repository identifier: the `Repo` record `{owner, name}` from
`repoRegistry`. Structural (deep) equality on `Repo` is field-wise string
equality, which is exactly the derived `DecidableEq`. -/
structure Repo where
  owner : String
  name : String
deriving DecidableEq

/-- The `Status` tagged union (lines 13–21 of the source): the four mutually
exclusive resolution outcomes. -/
inductive Status where
  | LOADING : Status
  | VALID (availableRepos : List Repo) (selectedRepo : Repo) : Status
  | NO_REPOS : Status
  | FAILURE : Status
deriving DecidableEq

/-- Whether a status is the `VALID` variant. -/
def Status.isVALID : Status → Bool
  | .VALID _ _ => true
  | _ => false

/-- The value found in the preference store under `REPO_KEY` by
`localStore.get(REPO_KEY, null)`. `null` models the absence of a stored
preference (the `null` default); `repo r` models a stored JSON value that is
structurally a `Repo`; `malformed` abstracts every other stored JSON value
(a string, a number, an object with different fields, …): lodash `isEqual`
between a `Repo` and any such value is `false`, so one abstract constructor
captures them all. -/
inductive Pref where
  | null : Pref
  | repo (r : Repo) : Pref
  | malformed : Pref
deriving DecidableEq

/-- Lodash `isEqual(x, localStoreRepo)` specialised to a `Repo` on the left
and a stored value on the right: structural equality, `false` against `null`
and against any non-`Repo`-shaped value. -/
def deepEqual (x : Repo) : Pref → Bool
  | .repo r => x == r
  | _ => false

/-- Outcome of the `localStore.get(REPO_KEY, null)` call as seen by
`loadStatus`: either a value (possibly the `null` default) or an exception,
which the surrounding `try`/`catch` of `loadStatus` intercepts. -/
inductive StoreRead where
  | value (p : Pref) : StoreRead
  | throws : StoreRead

/-- Outcome of `await fetch(REPO_REGISTRY_API)` followed by
`response.json()` and `fromJSON` as seen by `loadStatus`:
`networkError` — the fetch promise itself rejects;
`notOk` — the response arrives with `response.ok` false;
`decodeError` — `response.json()` or `fromJSON` throws;
`decoded repos` — the registry body decodes to the list `repos`, in the
order the registry sent it. -/
inductive FetchOutcome where
  | networkError : FetchOutcome
  | notOk : FetchOutcome
  | decodeError : FetchOutcome
  | decoded (repos : List Repo) : FetchOutcome

namespace NullUtil

/-- Modelled from the spec: `NullUtil.orElse` lives in `src/util/null.js`,
which is not included under `src/`; per the spec's resolution algorithm the
selection is the first structural match "if found", and otherwise "falls
back" to the stated default, i.e. `orElse` returns its first argument when
that is non-null and the default otherwise. -/
def orElse (x : Option Repo) (d : Repo) : Repo :=
  x.getD d

end NullUtil

/-- The sort key order used by `sortBy(availableRepos, r => r.owner,
r => r.name)`: ascending by `owner`, ties broken ascending by `name`.
It is phrased on the character lists so that it evaluates by `decide`;
by `String.lt_iff_toList_lt` and `String.le_iff_toList_le` this is exactly
the lexicographic string order. -/
def repoOrder (a b : Repo) : Prop :=
  a.owner.toList < b.owner.toList ∨
    (a.owner = b.owner ∧ a.name.toList ≤ b.name.toList)

instance : DecidableRel repoOrder := fun a b => by
  unfold repoOrder
  infer_instance

instance : IsTotal Repo repoOrder where
  total a b := by
    rcases lt_trichotomy a.owner.toList b.owner.toList with h | h | h
    · exact Or.inl (Or.inl h)
    · have howner : a.owner = b.owner := String.toList_inj.mp h
      rcases le_total a.name.toList b.name.toList with hn | hn
      · exact Or.inl (Or.inr ⟨howner, hn⟩)
      · exact Or.inr (Or.inr ⟨howner.symm, hn⟩)
    · exact Or.inr (Or.inl h)

instance : IsTrans Repo repoOrder where
  trans a b c hab hbc := by
    rcases hab with hab | ⟨hab, hab'⟩
    · rcases hbc with hbc | ⟨hbc, _⟩
      · exact Or.inl (hab.trans hbc)
      · exact Or.inl (hbc ▸ hab)
    · rcases hbc with hbc | ⟨hbc, hbc'⟩
      · exact Or.inl (hab ▸ hbc)
      · exact Or.inr ⟨hab.trans hbc, hab'.trans hbc'⟩

/-- Lodash `sortBy(availableRepos, r => r.owner, r => r.name)` (line 106):
a stable sort ascending by owner then name. A stable sort is extensionally
determined by its comparator, and two `Repo` values with equal keys are
equal, so any stable sort implementing `repoOrder` is a faithful model;
insertion sort is used because it is structurally recursive. -/
def sortBy (l : List Repo) : List Repo :=
  List.insertionSort repoOrder l

/-- The resolver `loadStatus` (lines 89–112), with the collaborator
outcomes passed in explicitly. The `try`/`catch` block is total by
construction: every exception path (`networkError`, a throwing
`response.json()`/`fromJSON`, a throwing store read) is a case mapped to
`FAILURE`, mirroring the top-level `catch`. -/
def loadStatus (fetch : FetchOutcome) (read : StoreRead) : Status :=
  match fetch with
  | .networkError => .FAILURE
  | .notOk => .FAILURE
  | .decodeError => .FAILURE
  | .decoded availableRepos =>
    if availableRepos.length = 0 then .NO_REPOS
    else
      match read with
      | .throws => .FAILURE
      | .value localStoreRepo =>
        let selectedRepo :=
          NullUtil.orElse
            (availableRepos.find? fun x => deepEqual x localStoreRepo)
            (availableRepos.getD (availableRepos.length - 1) ⟨"", ""⟩)
        let sortedRepos := sortBy availableRepos
        .VALID sortedRepos selectedRepo

/-- The `RepositorySelect.onChange` state update (lines 45–52): replace the
`selectedRepo` field when the current status is `VALID`, leave every other
status unchanged. -/
def onChangeStatus (status : Status) (selectedRepo : Repo) : Status :=
  match status with
  | .VALID availableRepos _ => .VALID availableRepos selectedRepo
  | other => other

/-- The observable state of the controller: its `Status`, the preference
store's content under `REPO_KEY`, and the repos forwarded so far to the
host application's `onChange` callback. -/
structure AppState where
  status : Status
  stored : Pref
  notified : List Repo
deriving DecidableEq

/-- A user-driven selection of `repo`, as composed by the source: the
`LocalStoreRepositorySelect` handler (lines 126–129) first calls
`RepositorySelect.onChange(repo)` — which updates `selectedRepo` only in
`VALID` (lines 46–50) and always forwards `repo` to the host callback
(line 51) — and then unconditionally runs `localStore.set(REPO_KEY, repo)`
(line 128). -/
def onUserSelect (s : AppState) (repo : Repo) : AppState :=
  { status := onChangeStatus s.status repo
    stored := Pref.repo repo
    notified := s.notified ++ [repo] }

/-- The host notifications emitted by `componentDidMount` (lines 36–43)
once `loadStatus` settles: `onChange(selectedRepo)` exactly when the
resolved status is `VALID`. -/
def initNotify (status : Status) : List Repo :=
  match status with
  | .VALID _ selectedRepo => [selectedRepo]
  | _ => []

/-- The controller state right after `componentDidMount`'s continuation has
run: the resolved status is stored and the host is notified per
`initNotify`; the mount path never writes the preference store. -/
def componentDidMount (fetch : FetchOutcome) (read : StoreRead)
    (stored : Pref) : AppState :=
  let status := loadStatus fetch read
  { status := status, stored := stored, notified := initNotify status }

/-- Whether a character belongs to the class `[A-Za-z0-9_-]` of the
validation regex (line 70). -/
def isValidRepoChar (c : Char) : Bool :=
  ('A' ≤ c && c ≤ 'Z') || ('a' ≤ c && c ≤ 'z') ||
    ('0' ≤ c && c ≤ '9') || c == '_' || c == '-'

/-- JavaScript `s.match(/^[A-Za-z0-9_-]+$/) !== null`: the whole string is
one or more characters of the class. -/
def matchesValidRe (s : String) : Bool :=
  !s.data.isEmpty && s.data.all isValidRepoChar

/-- The `validateRepo` check (lines 69–77), with the two `throw`s modelled
as `Except.error` carrying the source's message. -/
def validateRepo (repo : Repo) : Except String Unit :=
  if !matchesValidRe repo.owner then
    .error ("Invalid repository owner: " ++ repo.owner)
  else if !matchesValidRe repo.name then
    .error ("Invalid repository name: " ++ repo.name)
  else
    .ok ()

/-- JavaScript `split` on a single-character separator, over the character
list: `"".split(sep)` is `[""]`, and each occurrence of the separator ends
the current piece. -/
def jsSplitList (sep : Char) : List Char → List (List Char)
  | [] => [[]]
  | c :: cs =>
    match jsSplitList sep cs with
    | [] => [[]]
    | piece :: rest =>
      if c = sep then [] :: piece :: rest
      else (c :: piece) :: rest

/-- JavaScript `x.split(sep)` for the single-character separator used at
line 80. -/
def jsSplit (x : String) (sep : Char) : List String :=
  (jsSplitList sep x.data).map String.mk

/-- The parser `repoStringToRepo` (lines 79–87): split on `/`, require
exactly two pieces, build the record, run `validateRepo` and propagate its
failure. `throw` is modelled as `Except.error`. -/
def repoStringToRepo (x : String) : Except String Repo :=
  let pieces := jsSplit x '/'
  if pieces.length ≠ 2 then
    .error ("Invalid repo string: " ++ x)
  else
    let repo : Repo := ⟨pieces.getD 0 "", pieces.getD 1 ""⟩
    match validateRepo repo with
    | .error e => .error e
    | .ok _ => .ok repo

/-- The selector token format: the template literal `owner/name` used for
the `select` value and each `option` (lines 147 and 155). -/
def repoToString (repo : Repo) : String :=
  repo.owner ++ "/" ++ repo.name

/-! Helper lemmas. -/

theorem jsSplitList_ne_nil (sep : Char) (l : List Char) :
    jsSplitList sep l ≠ [] := by
  cases l with
  | nil => simp [jsSplitList]
  | cons c cs =>
    simp only [jsSplitList]
    cases jsSplitList sep cs with
    | nil => simp
    | cons p r =>
      by_cases hc : c = sep <;> simp [hc]

theorem jsSplitList_of_not_mem (sep : Char) (l : List Char) (h : sep ∉ l) :
    jsSplitList sep l = [l] := by
  induction l with
  | nil => rfl
  | cons c cs ih =>
    have hc : ¬ c = sep := fun hc => h (hc ▸ List.mem_cons_self c cs)
    have hcs : sep ∉ cs := fun hm => h (List.mem_cons_of_mem _ hm)
    simp [jsSplitList, ih hcs, hc]

theorem jsSplitList_append (sep : Char) (a b : List Char) (h : sep ∉ a) :
    jsSplitList sep (a ++ sep :: b) = a :: jsSplitList sep b := by
  induction a with
  | nil =>
    simp only [List.nil_append, jsSplitList]
    cases hb : jsSplitList sep b with
    | nil => exact absurd hb (jsSplitList_ne_nil sep b)
    | cons p r => simp
  | cons c cs ih =>
    have hc : ¬ c = sep := fun hc => h (hc ▸ List.mem_cons_self c cs)
    have hcs : sep ∉ cs := fun hm => h (List.mem_cons_of_mem _ hm)
    simp only [List.cons_append, jsSplitList]
    rw [List.append_eq, ih hcs]
    simp [hc]

theorem length_jsSplitList (sep : Char) (l : List Char) :
    (jsSplitList sep l).length = l.count sep + 1 := by
  induction l with
  | nil => rfl
  | cons c cs ih =>
    cases hs : jsSplitList sep cs with
    | nil => exact absurd hs (jsSplitList_ne_nil sep cs)
    | cons p r =>
      rw [hs] at ih
      by_cases hc : c = sep
      · subst hc
        simp [jsSplitList, hs, List.count_cons_self] at ih ⊢
        omega
      · simp [jsSplitList, hs, hc, List.count_cons_of_ne fun he => hc he.symm]
          at ih ⊢
        omega

theorem repoOrder_iff (a b : Repo) :
    repoOrder a b ↔
      (a.owner < b.owner ∨ (a.owner = b.owner ∧ a.name ≤ b.name)) := by
  unfold repoOrder
  rw [String.lt_iff_toList_lt, String.le_iff_toList_le]

theorem mem_sortBy {x : Repo} {l : List Repo} : x ∈ sortBy l ↔ x ∈ l :=
  (List.perm_insertionSort repoOrder l).mem_iff

theorem find?_deepEqual_repo_of_mem (repos : List Repo) (p : Repo)
    (h : p ∈ repos) :
    repos.find? (fun x => deepEqual x (.repo p)) = some p := by
  induction repos with
  | nil => cases h
  | cons c cs ih =>
    by_cases hc : c = p
    · subst hc
      have heq : deepEqual c (Pref.repo c) = true := by simp [deepEqual]
      simp [List.find?_cons, heq]
    · have hmem : p ∈ cs := by
        rcases List.mem_cons.mp h with h' | h'
        · exact absurd h'.symm hc
        · exact h'
      have hbeq : deepEqual c (Pref.repo p) = false := by
        simpa [deepEqual] using hc
      simp only [List.find?_cons, hbeq]
      exact ih hmem

theorem getD_last_eq_getLast (l : List Repo) (h : l ≠ []) (d : Repo) :
    l.getD (l.length - 1) d = l.getLast h := by
  have hlt : l.length - 1 < l.length :=
    Nat.sub_lt (List.length_pos.mpr h) Nat.one_pos
  rw [List.getD_eq_getElem?_getD, List.getElem?_eq_getElem hlt,
    Option.getD_some, List.getLast_eq_getElem]

/-! Claim theorems. -/

/-- C1: for a successful fetch whose decoded repository list is non-empty,
when no element of the decoded list structurally equals the persisted
preference (in particular when no preference is persisted, since
`deepEqual` is `false` against `null`), the returned `VALID` status selects
the last element of the decoded list in its original, pre-sort order. The
witness exhibits an input where this element differs from the last element
of the sorted `availableRepos` list. -/
theorem loadStatus_fallback_last_original (repos : List Repo) (pref : Pref)
    (hne : repos ≠ [])
    (hmiss : ∀ x ∈ repos, deepEqual x pref = false) :
    loadStatus (.decoded repos) (.value pref) =
      .VALID (sortBy repos) (repos.getLast hne) := by
  have hlen : ¬ repos.length = 0 := by
    simpa [List.length_eq_zero] using hne
  have hfind : repos.find? (fun x => deepEqual x pref) = none :=
    List.find?_eq_none.mpr fun x hx => by simp [hmiss x hx]
  simp only [loadStatus]
  rw [if_neg hlen]
  simp only [hfind, NullUtil.orElse, Option.getD_none]
  rw [getD_last_eq_getLast repos hne]

/-- Witness for C1: registry order `[{b,m}, {a,a}]`, nothing persisted; the
selection is `{a,a}` (last in original order), and it differs from `{b,m}`,
the last element of the sorted list `[{a,a}, {b,m}]`. -/
theorem loadStatus_fallback_last_original_witness :
    loadStatus (.decoded [⟨"b","m"⟩, ⟨"a","a"⟩]) (.value .null) =
      .VALID (sortBy [⟨"b","m"⟩, ⟨"a","a"⟩]) ⟨"a","a"⟩ ∧
    sortBy [⟨"b","m"⟩, ⟨"a","a"⟩] = [⟨"a","a"⟩, ⟨"b","m"⟩] ∧
    (⟨"a","a"⟩ : Repo) ≠ ⟨"b","m"⟩ :=
  ⟨loadStatus_fallback_last_original [⟨"b","m"⟩, ⟨"a","a"⟩] .null
      (by decide) (by decide),
   by decide, by decide⟩

/-- C2: for a successful fetch with a non-empty decoded list and a
persisted preference structurally equal to some element, the resolver
selects the first structurally-equal element of the list in its original,
undecoded order; since structural `Repo` equality is value equality, that
element is the preference itself, for every list containing it (hence for
every permutation). -/
theorem loadStatus_tieBreak_first_match (repos : List Repo) (p : Repo)
    (h : p ∈ repos) :
    loadStatus (.decoded repos) (.value (.repo p)) =
      .VALID (sortBy repos) p := by
  have hlen : ¬ repos.length = 0 := by
    simpa [List.length_eq_zero] using List.ne_nil_of_mem h
  simp only [loadStatus]
  rw [if_neg hlen]
  simp only [find?_deepEqual_repo_of_mem repos p h, NullUtil.orElse,
    Option.getD_some]

/-- Witness for C2: the spec's example registry with persisted preference
`{b,m}` selects `{b,m}`. -/
theorem loadStatus_tieBreak_first_match_witness :
    loadStatus (.decoded [⟨"a","z"⟩, ⟨"a","a"⟩, ⟨"b","m"⟩])
        (.value (.repo ⟨"b","m"⟩)) =
      .VALID (sortBy [⟨"a","z"⟩, ⟨"a","a"⟩, ⟨"b","m"⟩]) ⟨"b","m"⟩ :=
  loadStatus_tieBreak_first_match _ _ (by decide)

/-- C5: the resolver is a total function into `Status` — no exception
reaches the caller, by construction of the embedding — and every failure
path is converted to `FAILURE`: a rejected fetch, a non-success response, a
decode error, and an exception from the preference-store read (reachable
once the decoded list is non-empty). -/
theorem loadStatus_failure_conversion (read : StoreRead) (repos : List Repo)
    (hne : repos ≠ []) :
    loadStatus .networkError read = .FAILURE ∧
    loadStatus .notOk read = .FAILURE ∧
    loadStatus .decodeError read = .FAILURE ∧
    loadStatus (.decoded repos) .throws = .FAILURE := by
  refine ⟨rfl, rfl, rfl, ?_⟩
  have hlen : ¬ repos.length = 0 := by
    simpa [List.length_eq_zero] using hne
  simp only [loadStatus]
  rw [if_neg hlen]

/-- Witness for C5 at a concrete store read and registry list. -/
theorem loadStatus_failure_conversion_witness :
    loadStatus .networkError (.value .null) = .FAILURE ∧
    loadStatus .notOk (.value .null) = .FAILURE ∧
    loadStatus .decodeError (.value .null) = .FAILURE ∧
    loadStatus (.decoded [⟨"a","b"⟩]) .throws = .FAILURE :=
  loadStatus_failure_conversion (.value .null) [⟨"a","b"⟩] (by decide)

/-- C10: with a successful fetch and a non-empty decoded list, every
possible stored preference value — absent (`null`), structurally malformed,
or a `Repo` not in the registry — still yields a `VALID` status: the stored
value is never parsed or validated and can never cause `FAILURE` by
itself. -/
theorem loadStatus_stored_value_safe (repos : List Repo) (pref : Pref)
    (hne : repos ≠ []) :
    ∃ selectedRepo,
      loadStatus (.decoded repos) (.value pref) =
        .VALID (sortBy repos) selectedRepo := by
  have hlen : ¬ repos.length = 0 := by
    simpa [List.length_eq_zero] using hne
  simp only [loadStatus]
  rw [if_neg hlen]
  exact ⟨_, rfl⟩

/-- Witness for C10 at a malformed stored value: the resolution is still
`VALID`. -/
theorem loadStatus_stored_value_safe_witness :
    (loadStatus (.decoded [⟨"a","b"⟩]) (.value .malformed)).isVALID = true := by
  obtain ⟨sel, hsel⟩ :=
    loadStatus_stored_value_safe [⟨"a","b"⟩] .malformed (by decide)
  rw [hsel]
  rfl

/-- C6: the `availableRepos` list inside every `VALID` status returned by
the resolver is sorted ascending by owner and, for equal owners, ascending
by name — for every decoded registry list, hence for every permutation of
it. -/
theorem loadStatus_availableRepos_sorted (fetch : FetchOutcome)
    (read : StoreRead) (availableRepos : List Repo) (selectedRepo : Repo)
    (h : loadStatus fetch read = .VALID availableRepos selectedRepo) :
    availableRepos.Pairwise (fun a b =>
      a.owner < b.owner ∨ (a.owner = b.owner ∧ a.name ≤ b.name)) := by
  cases fetch with
  | networkError => cases h
  | notOk => cases h
  | decodeError => cases h
  | decoded repos =>
    simp only [loadStatus] at h
    by_cases hlen : repos.length = 0
    · rw [if_pos hlen] at h
      cases h
    · rw [if_neg hlen] at h
      cases read with
      | throws => cases h
      | value pref =>
        injection h with h1 h2
        subst h1
        have hs : List.Pairwise repoOrder (sortBy repos) :=
          List.sorted_insertionSort repoOrder repos
        exact hs.imp fun hab => (repoOrder_iff _ _).mp hab

/-- Witness for C6 at the spec's example registry, which the resolver
sorts to `[{a,a}, {a,z}, {b,m}]`. -/
theorem loadStatus_availableRepos_sorted_witness :
    List.Pairwise (fun a b : Repo =>
        a.owner < b.owner ∨ (a.owner = b.owner ∧ a.name ≤ b.name))
      [⟨"a","a"⟩, ⟨"a","z"⟩, ⟨"b","m"⟩] :=
  loadStatus_availableRepos_sorted
    (.decoded [⟨"a","z"⟩, ⟨"a","a"⟩, ⟨"b","m"⟩]) (.value .null)
    [⟨"a","a"⟩, ⟨"a","z"⟩, ⟨"b","m"⟩] ⟨"b","m"⟩ (by decide)

/-- C3 counterexample: the claim says a user-driven selection leaves the
preference store unchanged when the current status is `LOADING`; in the
code the `LocalStoreRepositorySelect` handler calls
`localStore.set(REPO_KEY, repo)` unconditionally, so from a `LOADING` state
with an empty store the store changes. -/
theorem onUserSelect_writes_store_during_loading :
    (AppState.mk .LOADING .null []).status = .LOADING ∧
    (onUserSelect (AppState.mk .LOADING .null []) ⟨"a","b"⟩).stored ≠
      (AppState.mk .LOADING .null []).stored := by
  decide

/-- C3 (amended): every user-driven selection `onUserSelect(repo)` writes
`repo` to the preference store under the selected-repository key regardless
of the current status; only the replacement of the `selectedRepo` field is
conditional on the status being `VALID` (any other status is left
unchanged). -/
theorem onUserSelect_always_writes_store (s : AppState) (repo : Repo) :
    (onUserSelect s repo).stored = .repo repo ∧
    (s.status.isVALID = false → (onUserSelect s repo).status = s.status) := by
  refine ⟨rfl, fun h => ?_⟩
  unfold onUserSelect onChangeStatus
  cases hs : s.status with
  | VALID a r =>
    rw [hs] at h
    cases h
  | LOADING => simp
  | NO_REPOS => simp
  | FAILURE => simp

/-- Witness for the amended C3 at a `FAILURE` state: the store is written
and the status is untouched. -/
theorem onUserSelect_always_writes_store_witness :
    (onUserSelect ⟨.FAILURE, .null, []⟩ ⟨"a","b"⟩).stored =
      .repo ⟨"a","b"⟩ ∧
    (onUserSelect ⟨.FAILURE, .null, []⟩ ⟨"a","b"⟩).status = .FAILURE :=
  ⟨(onUserSelect_always_writes_store ⟨.FAILURE, .null, []⟩ ⟨"a","b"⟩).1,
   (onUserSelect_always_writes_store ⟨.FAILURE, .null, []⟩ ⟨"a","b"⟩).2
     (by decide)⟩

/-- C4 counterexample: the claim extends the membership invariant to every
`onUserSelect(repo)` transition with an arbitrary `Repo` argument; the code
replaces `selectedRepo` without any membership check, so selecting a repo
outside `availableRepos` produces a `VALID` status violating the
invariant. -/
theorem onUserSelect_breaks_membership :
    (onUserSelect
        (AppState.mk (.VALID [⟨"a","b"⟩] ⟨"a","b"⟩) .null []) ⟨"c","d"⟩).status =
      .VALID [⟨"a","b"⟩] ⟨"c","d"⟩ ∧
    (⟨"c","d"⟩ : Repo) ∉ [(⟨"a","b"⟩ : Repo)] := by
  decide

/-- C4 (amended): every `VALID` status produced by the resolver satisfies
the invariant that `selectedRepo` is a member of `availableRepos`, and an
`onUserSelect(repo)` transition yields a `VALID` status satisfying the
invariant provided the chosen `repo` is a member of the current
`availableRepos` (the code checks no membership, so the restriction to
member arguments is necessary, per the counterexample). -/
theorem valid_membership_invariant :
    (∀ (fetch : FetchOutcome) (read : StoreRead)
      (availableRepos : List Repo) (selectedRepo : Repo),
      loadStatus fetch read = .VALID availableRepos selectedRepo →
      selectedRepo ∈ availableRepos) ∧
    (∀ (s : AppState) (repo : Repo) (availableRepos : List Repo)
      (selectedRepo : Repo),
      (∀ a r, s.status = .VALID a r → repo ∈ a) →
      (onUserSelect s repo).status = .VALID availableRepos selectedRepo →
      selectedRepo ∈ availableRepos) := by
  constructor
  · intro fetch read availableRepos selectedRepo h
    cases fetch with
    | networkError => cases h
    | notOk => cases h
    | decodeError => cases h
    | decoded repos =>
      simp only [loadStatus] at h
      by_cases hlen : repos.length = 0
      · rw [if_pos hlen] at h
        cases h
      · rw [if_neg hlen] at h
        cases read with
        | throws => cases h
        | value pref =>
          injection h with h1 h2
          subst h1
          subst h2
          have hne : repos ≠ [] := by
            simpa [← List.length_eq_zero] using hlen
          have hmem : NullUtil.orElse
              (repos.find? fun x => deepEqual x pref)
              (repos.getD (repos.length - 1) ⟨"", ""⟩) ∈ repos := by
            cases hf : repos.find? fun x => deepEqual x pref with
            | some q =>
              simpa [NullUtil.orElse] using List.mem_of_find?_eq_some hf
            | none =>
              rw [NullUtil.orElse, Option.getD_none,
                getD_last_eq_getLast repos hne]
              exact List.getLast_mem hne
          exact mem_sortBy.mpr hmem
  · intro s repo availableRepos selectedRepo hguard h
    unfold onUserSelect at h
    cases hs : s.status with
    | VALID a r =>
      rw [hs] at h
      unfold onChangeStatus at h
      injection h with h1 h2
      subst h1
      subst h2
      exact hguard a r hs
    | LOADING =>
      rw [hs] at h
      cases h
    | NO_REPOS =>
      rw [hs] at h
      cases h
    | FAILURE =>
      rw [hs] at h
      cases h

/-- Witness for the amended C4: the resolver part at a concrete registry,
and the transition part at a selection inside `availableRepos`. -/
theorem valid_membership_invariant_witness :
    (⟨"a","a"⟩ : Repo) ∈ [(⟨"a","a"⟩ : Repo), ⟨"b","m"⟩] ∧
    (⟨"a","b"⟩ : Repo) ∈ [(⟨"a","b"⟩ : Repo)] :=
  ⟨valid_membership_invariant.1 (.decoded [⟨"b","m"⟩, ⟨"a","a"⟩])
      (.value .null) [⟨"a","a"⟩, ⟨"b","m"⟩] ⟨"a","a"⟩ (by decide),
   valid_membership_invariant.2
      ⟨.VALID [⟨"a","b"⟩] ⟨"a","b"⟩, .null, []⟩ ⟨"a","b"⟩
      [⟨"a","b"⟩] ⟨"a","b"⟩
      (by intro a r har; injection har with h1 h2; subst h1; decide)
      (by decide)⟩

/-- C9: after initial resolution the host callback is notified exactly once
with the resolved `selectedRepo` when the status is `VALID`, never when it
is not (`LOADING`, `NO_REPOS`, `FAILURE`); and every user-driven selection
appends exactly its repo to the notification stream regardless of the
current status. -/
theorem host_notification :
    (∀ (fetch : FetchOutcome) (read : StoreRead) (stored : Pref),
      ((componentDidMount fetch read stored).status.isVALID = false →
        (componentDidMount fetch read stored).notified = []) ∧
      (∀ (availableRepos : List Repo) (selectedRepo : Repo),
        (componentDidMount fetch read stored).status =
          .VALID availableRepos selectedRepo →
        (componentDidMount fetch read stored).notified = [selectedRepo])) ∧
    (∀ (s : AppState) (repo : Repo),
      (onUserSelect s repo).notified = s.notified ++ [repo]) := by
  refine ⟨fun fetch read stored => ⟨?_, ?_⟩, fun s repo => rfl⟩
  · intro h
    unfold componentDidMount at h ⊢
    cases hs : loadStatus fetch read with
    | VALID a r =>
      rw [hs] at h
      cases h
    | LOADING => simp [initNotify, hs]
    | NO_REPOS => simp [initNotify, hs]
    | FAILURE => simp [initNotify, hs]
  · intro availableRepos selectedRepo h
    simp only [componentDidMount] at h ⊢
    rw [h]
    rfl

/-- Witness for C9: a successful mount notifies once with the resolved
selection, a failed mount notifies nobody, and a user selection from a
`NO_REPOS` state is still forwarded. -/
theorem host_notification_witness :
    (componentDidMount (.decoded [⟨"a","b"⟩]) (.value .null) .null).notified =
      [⟨"a","b"⟩] ∧
    (componentDidMount .notOk (.value .null) .null).notified = [] ∧
    (onUserSelect ⟨.NO_REPOS, .null, []⟩ ⟨"c","d"⟩).notified =
      [] ++ [⟨"c","d"⟩] :=
  ⟨(host_notification.1 (.decoded [⟨"a","b"⟩]) (.value .null) .null).2
      [⟨"a","b"⟩] ⟨"a","b"⟩ (by decide),
   (host_notification.1 .notOk (.value .null) .null).1 (by decide),
   host_notification.2 ⟨.NO_REPOS, .null, []⟩ ⟨"c","d"⟩⟩

theorem slash_not_mem_of_matches (s : String)
    (h : matchesValidRe s = true) : ('/' : Char) ∉ s.data := by
  intro hm
  unfold matchesValidRe at h
  rw [Bool.and_eq_true] at h
  have hc := List.all_eq_true.mp h.2 '/' hm
  exact absurd hc (by decide)

/-- C7: formatting a `Repo` whose owner and name both fully match
`[A-Za-z0-9_-]+` as the token `owner/name` and parsing it back returns the
same `Repo` structurally. -/
theorem parse_format_roundTrip (r : Repo)
    (howner : matchesValidRe r.owner = true)
    (hname : matchesValidRe r.name = true) :
    repoStringToRepo (repoToString r) = .ok r := by
  have ho := slash_not_mem_of_matches r.owner howner
  have hn := slash_not_mem_of_matches r.name hname
  have hdata : (repoToString r).data = r.owner.data ++ '/' :: r.name.data := by
    simp [repoToString, String.data_append]
  have hsplit : jsSplitList '/' (repoToString r).data =
      [r.owner.data, r.name.data] := by
    rw [hdata, jsSplitList_append '/' _ _ ho, jsSplitList_of_not_mem '/' _ hn]
  have hjs : jsSplit (repoToString r) '/' = [r.owner, r.name] := by
    unfold jsSplit
    rw [hsplit]
    rfl
  simp only [repoStringToRepo, hjs]
  rw [if_neg (by simp)]
  have hrepo : (⟨([r.owner, r.name] : List String).getD 0 "",
      ([r.owner, r.name] : List String).getD 1 ""⟩ : Repo) = r := rfl
  rw [hrepo]
  simp [validateRepo, howner, hname]

/-- Witness for C7 at the repo `{A-b_9, z}`, whose fields exercise letters,
digits, underscore and hyphen. -/
theorem parse_format_roundTrip_witness :
    matchesValidRe (Repo.mk "A-b_9" "z").owner = true ∧
    matchesValidRe (Repo.mk "A-b_9" "z").name = true ∧
    repoStringToRepo (repoToString ⟨"A-b_9","z"⟩) = .ok ⟨"A-b_9","z"⟩ :=
  ⟨by decide, by decide,
   parse_format_roundTrip ⟨"A-b_9","z"⟩ (by decide) (by decide)⟩

/-- C8: parsing a token succeeds exactly when the token contains exactly
one `/` and both resulting segments are non-empty and drawn from
`[A-Za-z0-9_-]` (the `matchesValidRe` check covers both the emptiness and
the character-class rejection); on success the result is
`{owner: first segment, name: second segment}`. -/
theorem parse_rejection_characterization (x : String) :
    ((repoStringToRepo x).isOk = true ↔
      (x.data.count '/' = 1 ∧
        matchesValidRe ((jsSplit x '/').getD 0 "") = true ∧
        matchesValidRe ((jsSplit x '/').getD 1 "") = true)) ∧
    (∀ r : Repo, repoStringToRepo x = .ok r →
      r = ⟨(jsSplit x '/').getD 0 "", (jsSplit x '/').getD 1 ""⟩) := by
  have hlen := length_jsSplitList '/' x.data
  by_cases h2 : (jsSplitList '/' x.data).length = 2
  · obtain ⟨s0, s1, hs⟩ := List.length_eq_two.mp h2
    have hcount : x.data.count '/' = 1 := by
      rw [hs] at hlen
      simp at hlen
      omega
    have hjs : jsSplit x '/' = [String.mk s0, String.mk s1] := by
      unfold jsSplit
      rw [hs]
      rfl
    have hgetD0 : (jsSplit x '/').getD 0 "" = String.mk s0 := by
      rw [hjs]
      rfl
    have hgetD1 : (jsSplit x '/').getD 1 "" = String.mk s1 := by
      rw [hjs]
      rfl
    cases hv0 : matchesValidRe (String.mk s0) with
    | false =>
      have hres : repoStringToRepo x =
          .error ("Invalid repository owner: " ++ String.mk s0) := by
        simp [repoStringToRepo, hjs, validateRepo, hv0]
      refine ⟨?_, ?_⟩
      · rw [hres, hgetD0, hgetD1]
        simp [Except.isOk, Except.toBool, hv0]
      · intro r hr
        rw [hres] at hr
        cases hr
    | true =>
      cases hv1 : matchesValidRe (String.mk s1) with
      | false =>
        have hres : repoStringToRepo x =
            .error ("Invalid repository name: " ++ String.mk s1) := by
          simp [repoStringToRepo, hjs, validateRepo, hv0, hv1]
        refine ⟨?_, ?_⟩
        · rw [hres, hgetD0, hgetD1]
          simp [Except.isOk, Except.toBool, hv1]
        · intro r hr
          rw [hres] at hr
          cases hr
      | true =>
        have hres : repoStringToRepo x =
            .ok ⟨String.mk s0, String.mk s1⟩ := by
          simp [repoStringToRepo, hjs, validateRepo, hv0, hv1]
        refine ⟨?_, ?_⟩
        · rw [hres, hgetD0, hgetD1]
          simp [Except.isOk, Except.toBool, hv0, hv1, hcount]
        · intro r hr
          rw [hres] at hr
          injection hr with h
          rw [← h, hgetD0, hgetD1]
  · have hcount : x.data.count '/' ≠ 1 := by omega
    have hlen2 : ¬ (jsSplit x '/').length = 2 := by
      unfold jsSplit
      simpa using h2
    have hres : repoStringToRepo x = .error ("Invalid repo string: " ++ x) := by
      simp [repoStringToRepo, hlen2]
    refine ⟨?_, ?_⟩
    · simp [hres, hcount, Except.isOk, Except.toBool]
    · intro r hr
      rw [hres] at hr
      cases hr

/-- Witness for C8: `foo/bar` has one slash and two valid segments, parses,
and yields `{foo, bar}`; the segments are the split pieces. -/
theorem parse_rejection_characterization_witness :
    (repoStringToRepo "foo/bar").isOk = true ∧
    (Repo.mk "foo" "bar" : Repo) =
      ⟨(jsSplit "foo/bar" '/').getD 0 "", (jsSplit "foo/bar" '/').getD 1 ""⟩ :=
  ⟨(parse_rejection_characterization "foo/bar").1.mpr
      ⟨by decide, by decide, by decide⟩,
   (parse_rejection_characterization "foo/bar").2 ⟨"foo","bar"⟩ (by rfl)⟩
